import Mathlib

set_option maxHeartbeats 1000000
set_option maxRecDepth 100000

/-!
Verification of the archive unpacker: a shallow embedding of the chunk
reader, file-table decoder, metadata decoder, archive-header loader,
header aggregator (merge) and extraction engine, modelled from the Rust
source (`archive_reader.rs`, `archive_header.rs`, `main.rs`).

Byte streams are `List Nat` (little-endian words are assembled exactly as
the `read_u16_le` / `read_u32_le` primitives do); fallible reads return
`Option`/`Except`.  Loops are written with an explicit fuel argument so
that every definition is executable by the kernel; fuel `length + 1` is
always sufficient because every loop iteration consumes at least one byte,
and the general theorems carry the corresponding fuel bound.  Sequencing
of fallible reads is written with the tiny combinators `optElim`,
`orDie` and `exBind`, which mirror the `match`/`unwrap`/`?` shapes of the
Rust code one-to-one.

External collaborators (the LH1 decoder, the LZO decompressor, the CRC32
function and the text-encoding codec) are parameters, exactly as the spec
declares them to be interfaces.
-/

namespace Yasu

/-- Eliminate an `Option`: the Rust `match` on a fallible read. -/
def optElim {α β : Type} (r : Option α) (n : β) (k : α → β) : β :=
  match r with
  | none => n
  | some v => k v

/-- A failed `Option` read is a fatal error (`unwrap` / `expect`). -/
def orDie {α β : Type} (r : Option α) (msg : String) (k : α → Except String β) :
    Except String β :=
  match r with
  | none => .error msg
  | some v => k v

/-- Sequence two fallible computations (`?` / propagating a panic). -/
def exBind {α β : Type} (r : Except String α) (k : α → Except String β) : Except String β :=
  match r with
  | .error e => .error e
  | .ok v => k v

/-- Little-endian encoding of a 16-bit value as two bytes. -/
def u16le (v : Nat) : List Nat := [v % 256, v / 256 % 256]

/-- Little-endian encoding of a 32-bit value as four bytes. -/
def u32le (v : Nat) : List Nat := [v % 256, v / 256 % 256, v / 65536 % 256, v / 16777216 % 256]

/-- `read_u16::<LittleEndian>`: two bytes or end-of-stream. -/
def readU16le? (s : List Nat) : Option (Nat × List Nat) :=
  match s with
  | a :: b :: rest => some (a + 256 * b, rest)
  | _ => none

/-- `read_u32_le` / `read_u32::<LittleEndian>`: four bytes or end-of-stream. -/
def readU32le? (s : List Nat) : Option (Nat × List Nat) :=
  match s with
  | a :: b :: c :: d :: rest => some (a + 256 * (b + 256 * (c + 256 * d)), rest)
  | _ => none

/-- `read_exact`: exactly `n` bytes or end-of-stream. -/
def readExact? (n : Nat) (s : List Nat) : Option (List Nat × List Nat) :=
  if n ≤ s.length then some (s.take n, s.drop n) else none

/-- Is an `Except` value an `ok`? -/
def exceptIsOk {ε α : Type} : Except ε α → Bool
  | .ok _ => true
  | .error _ => false

/-- One packed-file descriptor (struct `FileDescriptor` in `archive_header.rs`). -/
structure FileDescriptor where
  name : String
  offset : Nat
  real_size : Nat
  compressed_size : Nat
  crc : Nat
deriving DecidableEq

/-- `HashMap::insert` modelled on an association list with unique keys:
overwrite the binding for `k` in place, or append a new one. -/
def mapInsert {α : Type} (m : List (String × α)) (k : String) (v : α) : List (String × α) :=
  match m with
  | [] => [(k, v)]
  | (k', v') :: rest => if k' = k then (k, v) :: rest else (k', v') :: mapInsert rest k v

/-- `HashMap::get` on the association-list model. -/
def mapLookup {α : Type} (m : List (String × α)) (k : String) : Option α :=
  match m with
  | [] => none
  | (k', v') :: rest => if k' = k then some v' else mapLookup rest k

/-- The value of the last binding of `k` in a raw pair list (the binding a
sequence of `insert`s ends up with). -/
def lookupLast {α : Type} : List (String × α) → String → Option α
  | [], _ => none
  | x :: rest, k =>
    match lookupLast rest k with
    | some v => some v
    | none => if x.1 = k then some x.2 else none

/-- The decoded file table of one archive: name ↦ descriptor. -/
abbrev FdMap := List (String × FileDescriptor)

/-- One iteration of the `read_file_descriptors` loop
(`archive_header.rs`): end-of-stream at the `header_size` read ends the
loop (`ok none`); a failed read anywhere else is fatal.  `name_size` is
the wrapping 16-bit subtraction `header_size - 16`, and the assert
`name_size < 520` (the `[0u8; 260 * 2]` buffer length) aborts on
violation before the name bytes are read.  The name bytes are decoded
with the configured encoding after the offset read; a decode error is
fatal. -/
def readFdStep (enc : List Nat → String × Bool) (s : List Nat) :
    Except String (Option (FileDescriptor × List Nat)) :=
  optElim (readU16le? s) (.ok none) fun hs =>
  orDie (readU32le? hs.2) "Unable to read real_size" fun rs =>
  orDie (readU32le? rs.2) "Unable to read compressed_size" fun cs =>
  orDie (readU32le? cs.2) "Unable to read crc" fun cr =>
  (if (hs.1 + 65536 - 16) % 65536 < 520 then
     orDie (readExact? ((hs.1 + 65536 - 16) % 65536) cr.2)
       "Unable to read file name from header" fun nb =>
     orDie (readU32le? nb.2) "Unable to read offset" fun off =>
     (if (enc nb.1).2 then .error "Had errors decoding file name"
      else .ok (some (⟨(enc nb.1).1, off.1, rs.1, cs.1, cr.1⟩, off.2)))
   else .error "Name is too long")

/-- The record loop of `read_file_descriptors`: each decoded record is
inserted under its name (later duplicates overwrite).  Fuel: each
iteration consumes at least two bytes, so `length + 1` is always enough. -/
def readFdLoop (enc : List Nat → String × Bool) : Nat → FdMap → List Nat → Except String FdMap
  | 0, _, _ => .error "fuel exhausted"
  | fuel + 1, acc, s =>
    exBind (readFdStep enc s) fun st =>
      optElim st (.ok acc) fun fs =>
        readFdLoop enc fuel (mapInsert acc fs.1.name fs.1) fs.2

/-- `read_file_descriptors`: run the record loop on a whole chunk payload. -/
def readFileDescriptors (enc : List Nat → String × Bool) (s : List Nat) : Except String FdMap :=
  readFdLoop enc (s.length + 1) [] s

/-- The on-disk layout of one file-table record:
`u16 header_size = 16 + |name|`, `u32 real_size`, `u32 compressed_size`,
`u32 crc`, name bytes, `u32 offset`. -/
def encodeRecord (real comp crc : Nat) (name : List Nat) (off : Nat) : List Nat :=
  u16le (16 + name.length) ++ (u32le real ++ (u32le comp ++ (u32le crc ++ (name ++ u32le off))))

/-- Word character of the metadata regexes (`\w`), on the ASCII fragment. -/
def isWordChar (c : Char) : Bool := c.isAlphanum || c = '_'

/-- The capture of `^.*\[(?P<name>\w*)\]$`: the line ends in `]`, and the
(possibly empty) run of word characters before it is immediately preceded
by `[`; the greedy `.*` makes the match land on the last such `[`. -/
def sectionCapture (line : String) : Option String :=
  match line.data.reverse with
  | ']' :: rest =>
    (match rest.dropWhile isWordChar with
     | '[' :: _ => some (String.mk (rest.takeWhile isWordChar).reverse)
     | _ => none)
  | _ => none

/-- The captures of `^\s*(?P<name>\w+)\s*=\s*(?P<value>.+)\s*$`.  The
greedy `.+` swallows trailing whitespace (the final `\s*` matches empty),
so the value is only left-trimmed; when everything after `=` is
whitespace, backtracking leaves the single last whitespace character as
the value. -/
def variableCapture (line : String) : Option (String × String) :=
  let cs := line.data.dropWhile (fun c => c.isWhitespace)
  match cs.takeWhile isWordChar with
  | [] => none
  | nm =>
    match (cs.dropWhile isWordChar).dropWhile (fun c => c.isWhitespace) with
    | '=' :: restv =>
      (match restv.dropWhile (fun c => c.isWhitespace) with
       | [] =>
         (match restv.getLast? with
          | some c => some (String.mk nm, String.mk [c])
          | none => none)
       | v => some (String.mk nm, String.mk v))
    | _ => none

/-- `root_regex.replace(value, "")` for `^\$\w+?\$\\`: strip a leading
`$word$\` token if present. -/
def stripRoot (v : String) : String :=
  match v.data with
  | '$' :: rest =>
    (match rest.takeWhile isWordChar, rest.dropWhile isWordChar with
     | [], _ => v
     | _ :: _, '$' :: '\\' :: tail => String.mk tail
     | _, _ => v)
  | _ => v

/-- Split on `'\n'` accumulating the current line in reverse. -/
def splitLinesAux : List Char → List Char → List (List Char)
  | [], acc => [acc.reverse]
  | c :: rest, acc =>
    if c = '\n' then acc.reverse :: splitLinesAux rest []
    else splitLinesAux rest (c :: acc)

/-- Rust `str::lines`: split at `\n`, drop the trailing empty segment
produced by a final newline, and strip one trailing `\r` per line. -/
def rustLines (s : String) : List String :=
  let parts := splitLinesAux s.data []
  let parts := if parts.getLast? = some [] then parts.dropLast else parts
  parts.map (fun l =>
    String.mk (match l.getLast? with
               | some c => if c = '\x0d' then l.dropLast else l
               | none => l))

/-- The line scan of `read_root_path`: track the most recently opened
section; inside `header`, the first `entry_point` key yields the stripped
value. -/
def readRootPathLines : List String → String → Option String
  | [], _ => none
  | line :: rest, lastSection =>
    optElim (sectionCapture line)
      (if lastSection = "header" then
         optElim (variableCapture line)
           (readRootPathLines rest lastSection)
           (fun nv =>
             if nv.1 = "entry_point" then some (stripRoot nv.2)
             else readRootPathLines rest lastSection)
       else readRootPathLines rest lastSection)
      (fun nm => readRootPathLines rest nm)

/-- `read_root_path`: decode the payload text (a decode error is fatal) and
scan it; `ok none` when no `header` section or no `entry_point` key is found. -/
def readRootPath (enc : List Nat → String × Bool) (bytes : List Nat) :
    Except String (Option String) :=
  if (enc bytes).2 then .error "Unable to decode header"
  else .ok (readRootPathLines (rustLines (enc bytes).1) "")

/-- `read_chunk` (`archive_reader.rs`): with the compressed flag set, read
the 4-byte little-endian decoded length, then `chunk_size - 4` bytes of
compressed data and decode them with the external LH1 decoder (`lh1 bytes
decodedLen` stands for `Lh1Decoder::new(bytes)` followed by `fill_buffer`
of a `decodedLen`-byte buffer); the `usize` underflow abort for
`chunk_size < 4` and every truncated read are fatal.  With the flag
clear, read exactly `chunk_size` raw bytes. -/
def readChunk (lh1 : List Nat → Nat → Option (List Nat)) (s : List Nat) (chunkSize : Nat)
    (compressed : Bool) : Except String (List Nat × List Nat) :=
  if compressed then
    orDie (readU32le? s) "compressed chunk truncated" fun dl =>
    (if chunkSize < 4 then .error "compressed chunk truncated"
     else
       orDie (readExact? (chunkSize - 4) dl.2) "compressed chunk truncated" fun cb =>
       orDie (lh1 cb.1 dl.1) "LH1 decoding failed" fun out => .ok (out, cb.2))
  else
    orDie (readExact? chunkSize s) "chunk data truncated" fun raw => .ok raw

/-- One iteration of the chunk loop of `read_archive_header`:
end-of-stream at the first header word breaks the loop normally
(`ok none`); a failed read of the second header word is a fatal
`unwrap`.  Chunk ids `0x1`/`0x86` replace the current file table,
`666`/`1337` set the root path via the metadata decoder (whose absent
result is a fatal `expect`), every other id is skipped by seeking
`chunk_size` bytes forward from the end of the 8-byte header.  Bit 31 of
the first word is the compressed flag; the remaining 31 bits are the id. -/
def archiveChunkStep (enc : List Nat → String × Bool) (lh1 : List Nat → Nat → Option (List Nat))
    (s : List Nat) (fds : Option FdMap) (root : String) :
    Except String (Option (List Nat × Option FdMap × String)) :=
  optElim (readU32le? s) (.ok none) fun ri =>
  orDie (readU32le? ri.2) "Error reading chunk size" fun cz =>
  (if ri.1 % 2147483648 = 1 ∨ ri.1 % 2147483648 = 134 then
     exBind (readChunk lh1 cz.2 cz.1 (decide (2147483648 ≤ ri.1))) fun p =>
     exBind (readFileDescriptors enc p.1) fun m => .ok (some (p.2, some m, root))
   else if ri.1 % 2147483648 = 666 ∨ ri.1 % 2147483648 = 1337 then
     exBind (readChunk lh1 cz.2 cz.1 (decide (2147483648 ≤ ri.1))) fun p =>
     exBind (readRootPath enc p.1) fun r =>
       optElim r (.error "entry_point must be specified") fun rp => .ok (some (p.2, fds, rp))
   else .ok (some (cz.2.drop cz.1, fds, root)))

/-- The chunk loop of `read_archive_header`, iterating `archiveChunkStep`.
Fuel: each iteration consumes the 8-byte header, so `length + 1` is
always enough. -/
def readArchiveLoop (enc : List Nat → String × Bool) (lh1 : List Nat → Nat → Option (List Nat)) :
    Nat → List Nat → Option FdMap → String → Except String (Option FdMap × String)
  | 0, _, _, _ => .error "fuel exhausted"
  | fuel + 1, s, fds, root =>
    exBind (archiveChunkStep enc lh1 s fds root) fun st =>
      optElim st (.ok (fds, root)) fun st' =>
        readArchiveLoop enc lh1 fuel st'.1 st'.2.1 st'.2.2

/-- Run the chunk loop with its canonical (always sufficient) fuel. -/
def runArchiveLoop (enc : List Nat → String × Bool) (lh1 : List Nat → Nat → Option (List Nat))
    (s : List Nat) (fds : Option FdMap) (root : String) : Except String (Option FdMap × String) :=
  readArchiveLoop enc lh1 (s.length + 1) s fds root

/-- One archive's parse result (`ArchiveHeader` without the path). -/
structure ArchiveHeaderRes where
  files : FdMap
  output_root_path : String
deriving DecidableEq

/-- `read_archive_header`: `some` exactly when a file-table chunk was seen. -/
def readArchiveHeader (enc : List Nat → String × Bool) (lh1 : List Nat → Nat → Option (List Nat))
    (s : List Nat) : Except String (Option ArchiveHeaderRes) :=
  match runArchiveLoop enc lh1 s none "" with
  | .error e => .error e
  | .ok (none, _) => .ok none
  | .ok (some m, root) => .ok (some ⟨m, root⟩)

/-- An abstract chunk: type id (31 bits), compressed flag, and the on-disk
payload bytes (whose length is the header's `chunk_size`). -/
structure RawChunk where
  id : Nat
  compressed : Bool
  data : List Nat
deriving DecidableEq

/-- A chunk whose header words fit their 32-bit fields. -/
def RawChunk.wf (c : RawChunk) : Prop :=
  c.id < 2147483648 ∧ c.data.length < 4294967296

instance (c : RawChunk) : Decidable c.wf := by
  unfold RawChunk.wf; infer_instance

/-- Serialize one chunk: 8-byte header, then the payload bytes. -/
def encodeChunk (c : RawChunk) : List Nat :=
  u32le (c.id + if c.compressed then 2147483648 else 0) ++ (u32le c.data.length ++ c.data)

/-- Serialize a chunk sequence. -/
def encodeChunks : List RawChunk → List Nat
  | [] => []
  | c :: cs => encodeChunk c ++ encodeChunks cs

/-- What the chunk loop does to its state for a single chunk, with the
chunk's payload taken in isolation. -/
def processChunk (enc : List Nat → String × Bool) (lh1 : List Nat → Nat → Option (List Nat))
    (c : RawChunk) (fds : Option FdMap) (root : String) :
    Except String (Option FdMap × String) :=
  if c.id = 1 ∨ c.id = 134 then
    exBind (readChunk lh1 c.data c.data.length c.compressed) fun p =>
    exBind (readFileDescriptors enc p.1) fun m => .ok (some m, root)
  else if c.id = 666 ∨ c.id = 1337 then
    exBind (readChunk lh1 c.data c.data.length c.compressed) fun p =>
    exBind (readRootPath enc p.1) fun r =>
      optElim r (.error "entry_point must be specified") fun rp => .ok (fds, rp)
  else .ok (fds, root)

/-- Fold the loop state over an abstract chunk list. -/
def foldChunks (enc : List Nat → String × Bool) (lh1 : List Nat → Nat → Option (List Nat)) :
    List RawChunk → Option FdMap → String → Except String (Option FdMap × String)
  | [], fds, root => .ok (fds, root)
  | c :: cs, fds, root =>
    exBind (processChunk enc lh1 c fds root) fun st => foldChunks enc lh1 cs st.1 st.2

/-- The last chunk of the sequence carrying a file-table id. -/
def lastTableChunk : List RawChunk → Option RawChunk
  | [] => none
  | c :: cs =>
    match lastTableChunk cs with
    | some c' => some c'
    | none => if c.id = 1 ∨ c.id = 134 then some c else none

/-- A chunk's delivered payload taken in isolation. -/
def chunkPayload (lh1 : List Nat → Nat → Option (List Nat)) (c : RawChunk) :
    Except String (List Nat) :=
  exBind (readChunk lh1 c.data c.data.length c.compressed) fun p => .ok p.1

/-- Modelled from the spec, for comparison with the code (claim C9): the
chunk-loop iteration whose skip branch first consumes the 4-byte
compressed-length prefix when the compressed flag is set, and then
advances by `chunk_size` — the behaviour the spec sentence describes. -/
def archiveChunkStepSkipSpec (enc : List Nat → String × Bool)
    (lh1 : List Nat → Nat → Option (List Nat)) (s : List Nat) (fds : Option FdMap)
    (root : String) : Except String (Option (List Nat × Option FdMap × String)) :=
  optElim (readU32le? s) (.ok none) fun ri =>
  orDie (readU32le? ri.2) "Error reading chunk size" fun cz =>
  (if ri.1 % 2147483648 = 1 ∨ ri.1 % 2147483648 = 134 then
     exBind (readChunk lh1 cz.2 cz.1 (decide (2147483648 ≤ ri.1))) fun p =>
     exBind (readFileDescriptors enc p.1) fun m => .ok (some (p.2, some m, root))
   else if ri.1 % 2147483648 = 666 ∨ ri.1 % 2147483648 = 1337 then
     exBind (readChunk lh1 cz.2 cz.1 (decide (2147483648 ≤ ri.1))) fun p =>
     exBind (readRootPath enc p.1) fun r =>
       optElim r (.error "entry_point must be specified") fun rp => .ok (some (p.2, fds, rp))
   else if decide (2147483648 ≤ ri.1) then
     orDie (readU32le? cz.2) "compressed chunk truncated" fun pre =>
       .ok (some (pre.2.drop cz.1, fds, root))
   else .ok (some (cz.2.drop cz.1, fds, root)))

/-- The spec-worded loop variant (claim C9 comparison). -/
def readArchiveLoopSkipSpec (enc : List Nat → String × Bool)
    (lh1 : List Nat → Nat → Option (List Nat)) :
    Nat → List Nat → Option FdMap → String → Except String (Option FdMap × String)
  | 0, _, _, _ => .error "fuel exhausted"
  | fuel + 1, s, fds, root =>
    exBind (archiveChunkStepSkipSpec enc lh1 s fds root) fun st =>
      optElim st (.ok (fds, root)) fun st' =>
        readArchiveLoopSkipSpec enc lh1 fuel st'.1 st'.2.1 st'.2.2

/-- Top level of the spec-worded skip variant (claim C9 comparison). -/
def readArchiveHeaderSkipSpec (enc : List Nat → String × Bool)
    (lh1 : List Nat → Nat → Option (List Nat)) (s : List Nat) :
    Except String (Option ArchiveHeaderRes) :=
  match readArchiveLoopSkipSpec enc lh1 (s.length + 1) s none "" with
  | .error e => .error e
  | .ok (none, _) => .ok none
  | .ok (some m, root) => .ok (some ⟨m, root⟩)

/-- Archive identity shared by every merged entry of one archive
(`ShortArchiveHeader` in `main.rs`). -/
structure ShortArchiveHeader where
  archive_path : String
  output_root_path : String
deriving DecidableEq

/-- The merged table: name ↦ (owning archive identity, descriptor). -/
abbrev MergedMap := List (String × (ShortArchiveHeader × FileDescriptor))

/-- Insert every (name, descriptor) pair of one archive into the merged
table, later pairs overwriting earlier ones (`files_and_dirs.insert`). -/
def insertAllFiles (hdr : ShortArchiveHeader) (files : FdMap) (acc : MergedMap) : MergedMap :=
  files.foldl (fun a nd => mapInsert a nd.1 (hdr, nd.2)) acc

/-- Fold the surviving archive headers, in input order, into one table. -/
def mergeHeadersAux : List (ShortArchiveHeader × FdMap) → MergedMap → MergedMap
  | [], acc => acc
  | (h, fs) :: rest, acc => mergeHeadersAux rest (insertAllFiles h fs acc)

/-- The merge of `main` (lines 109–128): archives folded in input order. -/
def mergeHeaders (hs : List (ShortArchiveHeader × FdMap)) : MergedMap :=
  mergeHeadersAux hs []

/-- One logged override: the overridden descriptor's name, the old owning
archive, and the new owning archive (the `debug!` in `main.rs`). -/
abbrev OverrideEvent := String × ShortArchiveHeader × ShortArchiveHeader

/-- Insert with override logging: when the name was already bound, record
an event (never an error). -/
def insertLogged (hdr : ShortArchiveHeader) (n : String) (d : FileDescriptor)
    (st : MergedMap × List OverrideEvent) : MergedMap × List OverrideEvent :=
  match mapLookup st.1 n with
  | none => (mapInsert st.1 n (hdr, d), st.2)
  | some old => (mapInsert st.1 n (hdr, d), (old.2.name, old.1, hdr) :: st.2)

/-- One archive's insertions with override logging. -/
def insertAllLogged (hdr : ShortArchiveHeader) (files : FdMap)
    (st : MergedMap × List OverrideEvent) : MergedMap × List OverrideEvent :=
  files.foldl (fun a nd => insertLogged hdr nd.1 nd.2 a) st

/-- The merge with override logging. -/
def mergeHeadersLogAux : List (ShortArchiveHeader × FdMap) →
    MergedMap × List OverrideEvent → MergedMap × List OverrideEvent
  | [], st => st
  | (h, fs) :: rest, st => mergeHeadersLogAux rest (insertAllLogged h fs st)

/-- The merge with override logging, from the empty table. -/
def mergeHeadersLog (hs : List (ShortArchiveHeader × FdMap)) : MergedMap × List OverrideEvent :=
  mergeHeadersLogAux hs ([], [])

/-- The entry the last archive in input order defines for a name: its
identity together with the descriptor of the name's last binding there. -/
def lastDefined : List (ShortArchiveHeader × FdMap) → String →
    Option (ShortArchiveHeader × FileDescriptor)
  | [], _ => none
  | (h, fs) :: rest, n =>
    match lastDefined rest n with
    | some r => some r
    | none => (lookupLast fs n).map (fun d => (h, d))

/-- The stored-payload copy loop of `unpack_file`: the reusable buffer has
`min (256 KiB) real_size` bytes; each iteration reads
`min buf.len remaining` bytes (a read returns everything available up to
that bound), a zero-length read before completion is the fatal
"Unexpected End Of File", and each read chunk is written through.  Fuel:
every successful iteration consumes at least one byte of `remaining`. -/
def copyChunksF (bufLen : Nat) : Nat → List Nat → Nat → Except String (List (List Nat))
  | 0, _, _ => .error "fuel exhausted"
  | fuel + 1, src, remaining =>
    if remaining = 0 then .ok []
    else
      if min (min bufLen remaining) src.length = 0 then .error "Unexpected End Of File"
      else
        exBind
          (copyChunksF bufLen fuel (src.drop (min (min bufLen remaining) src.length))
            (remaining - min (min bufLen remaining) src.length)) fun chunks =>
          .ok (src.take (min (min bufLen remaining) src.length) :: chunks)

/-- The stored-payload copy: `real_size` bytes in chunks of at most
256 KiB, starting from the seeked position. -/
def copyStored (src : List Nat) (n : Nat) : Except String (List (List Nat)) :=
  copyChunksF (min 262144 n) (n + 1) src n

/-- `unpack_file` (`main.rs`): seek to the descriptor's offset; when
`real_size ≠ compressed_size` read exactly `compressed_size` bytes,
LZO-decompress them to `real_size` bytes, and require
`crc32(decompressed) = crc` (mismatch is the fatal assert); otherwise
stream-copy `real_size` bytes with no checksum.  The returned bytes are
the destination file's content. -/
def unpackFile (lzo : List Nat → Nat → Option (List Nat)) (crc32 : List Nat → Nat)
    (archive : List Nat) (d : FileDescriptor) : Except String (List Nat) :=
  if d.real_size ≠ d.compressed_size then
    orDie (readExact? d.compressed_size (archive.drop d.offset))
      "Unable to read compressed payload" fun buf =>
    orDie (lzo buf.1 d.real_size) "Valid LZO data" fun out =>
    (if crc32 out = d.crc then .ok out else .error "CRCs do not match")
  else
    exBind (copyStored (archive.drop d.offset) d.real_size) fun chunks => .ok chunks.flatten

/-- A concrete codec standing in for the configured encoding on ASCII
input: each byte below 128 is its own character; any higher byte flags a
decode error. -/
def asciiEnc (bytes : List Nat) : String × Bool :=
  (String.mk (bytes.map (fun b => Char.ofNat b)), bytes.any (fun b => 128 ≤ b))

/-- A stand-in LH1 decoder that always fails (unused on uncompressed data). -/
def lh1None : List Nat → Nat → Option (List Nat) := fun _ _ => none

/-- A stand-in LH1 decoder that fills the whole buffer with zeros. -/
def lh1Repl : List Nat → Nat → Option (List Nat) := fun _ d => some (List.replicate d 0)

/-- A stand-in LZO decompressor producing `n` sevens. -/
def lzoRepl : List Nat → Nat → Option (List Nat) := fun _ n => some (List.replicate n 7)

/-- A stand-in CRC32 returning the buffer length. -/
def crcLen : List Nat → Nat := fun l => l.length

/-- A stand-in CRC32 returning zero. -/
def crcZero : List Nat → Nat := fun _ => 0

/-- Concrete file-table record: name "a". -/
def recA : List Nat := encodeRecord 5 5 0 [97] 0

/-- Concrete file-table record: name "b". -/
def recB : List Nat := encodeRecord 5 5 0 [98] 0

/-- Two file-table chunks in one archive (claim C2). -/
def csTwoTables : List RawChunk := [⟨1, false, recA⟩, ⟨134, false, recB⟩]

/-- A compressed-flagged unrecognized chunk followed by a table chunk (claim C9). -/
def csSkipThenTable : List RawChunk :=
  [⟨5, true, [1, 0, 0, 0, 0, 0, 0, 0]⟩, ⟨1, false, recA⟩]

/-- A metadata chunk whose payload has no section and no key (claim C6). -/
def csMetaNoEntry : List RawChunk := [⟨666, false, [97, 98, 99]⟩]

/-! ## Helper lemmas: combinators and byte-level readers -/

theorem optElim_none {α β : Type} (n : β) (k : α → β) : optElim none n k = n := rfl

theorem optElim_some {α β : Type} (v : α) (n : β) (k : α → β) : optElim (some v) n k = k v := rfl

theorem orDie_none {α β : Type} (msg : String) (k : α → Except String β) :
    orDie none msg k = .error msg := rfl

theorem orDie_some {α β : Type} (v : α) (msg : String) (k : α → Except String β) :
    orDie (some v) msg k = k v := rfl

theorem exBind_error {α β : Type} (e : String) (k : α → Except String β) :
    exBind (.error e) k = .error e := rfl

theorem exBind_ok {α β : Type} (v : α) (k : α → Except String β) :
    exBind (.ok v) k = k v := rfl

theorem takeAppend {α : Type} (a b : List α) : (a ++ b).take a.length = a := by
  induction a with
  | nil => rfl
  | cons x xs ih => simp [ih]

theorem dropAppend {α : Type} (a b : List α) : (a ++ b).drop a.length = b := by
  induction a with
  | nil => rfl
  | cons x xs ih => simp [ih]

theorem readU16le?_u16le (v : Nat) (r : List Nat) (h : v < 65536) :
    readU16le? (u16le v ++ r) = some (v, r) := by
  simp only [u16le, readU16le?, List.cons_append, List.nil_append]
  have hv : v % 256 + 256 * (v / 256 % 256) = v := by omega
  rw [hv]

theorem readU32le?_u32le (v : Nat) (r : List Nat) (h : v < 4294967296) :
    readU32le? (u32le v ++ r) = some (v, r) := by
  simp only [u32le, readU32le?, List.cons_append, List.nil_append]
  have hv : v % 256 + 256 * (v / 256 % 256 + 256 * (v / 65536 % 256 + 256 * (v / 16777216 % 256)))
      = v := by omega
  rw [hv]

theorem readU32le?_none (s : List Nat) (h : s.length < 4) : readU32le? s = none := by
  match s with
  | [] => rfl
  | [_] => rfl
  | [_, _] => rfl
  | [_, _, _] => rfl
  | _ :: _ :: _ :: _ :: _ => simp at h; omega

theorem readU32le?_some_len {s : List Nat} {v : Nat} {r : List Nat}
    (h : readU32le? s = some (v, r)) : s.length = r.length + 4 := by
  match s with
  | [] | [_] | [_, _] | [_, _, _] => simp [readU32le?] at h
  | a :: b :: c :: d :: rest =>
    simp only [readU32le?, Option.some.injEq, Prod.mk.injEq] at h
    simp [← h.2]

theorem readU32le?_of_len {s : List Nat} (h : 4 ≤ s.length) :
    ∃ v r, readU32le? s = some (v, r) ∧ r.length + 4 = s.length := by
  match s with
  | [] | [_] | [_, _] | [_, _, _] => simp at h
  | a :: b :: c :: d :: rest => exact ⟨_, rest, rfl, by simp⟩

theorem readU32le?_append {s t : List Nat} {v : Nat} {r : List Nat}
    (h : readU32le? s = some (v, r)) : readU32le? (s ++ t) = some (v, r ++ t) := by
  match s with
  | [] | [_] | [_, _] | [_, _, _] => simp [readU32le?] at h
  | a :: b :: c :: d :: rest =>
    simp only [readU32le?, Option.some.injEq, Prod.mk.injEq] at h
    simp [readU32le?, h.1, h.2]

theorem readExact?_append (a r : List Nat) : readExact? a.length (a ++ r) = some (a, r) := by
  simp [readExact?, takeAppend, dropAppend]

theorem readExact?_all (s : List Nat) : readExact? s.length s = some (s, []) := by
  simpa using readExact?_append s []

theorem readExact?_none {n : Nat} {s : List Nat} (h : s.length < n) : readExact? n s = none := by
  simp [readExact?]; omega

theorem readExact?_some_len {n : Nat} {s b r : List Nat} (h : readExact? n s = some (b, r)) :
    r.length ≤ s.length ∧ b.length = n := by
  simp only [readExact?] at h
  split at h
  · rename_i hn
    cases h
    constructor
    · simp
    · simp; omega
  · cases h

/-- A loop iteration with fewer than two bytes left ends the record loop normally. -/
theorem readFdLoop_break (enc : List Nat → String × Bool) (fuel : Nat) (acc : FdMap)
    (s : List Nat) (h : s.length < 2) : readFdLoop enc (fuel + 1) acc s = .ok acc := by
  have hstep : readFdStep enc s = .ok none := by
    have h16 : readU16le? s = none := by
      match s with
      | [] => rfl
      | [_] => rfl
      | _ :: _ :: _ => simp at h; omega
    simp [readFdStep, h16, optElim_none]
  simp [readFdLoop, hstep, exBind_ok, optElim_none]

/-! ## C10: header_size below 16 wraps and is always rejected -/

/-- C10: for every file-table record whose `header_size` field is less than
16, the decoder aborts and never yields a descriptor for that record: the
name length is the wrapping 16-bit subtraction `header_size - 16`, which for
`header_size < 16` lands in `[65520, 65535]` and always violates the
`name_size < 520` assert (and every shorter stream dies on a fatal read), so
no descriptor with a wrapped name length is ever silently produced. -/
theorem headerSize_underflow_aborts (enc : List Nat → String × Bool) (h : Nat)
    (hlt : h < 16) (fuel : Nat) (acc : FdMap) (rest : List Nat) :
    exceptIsOk (readFdLoop enc fuel acc (u16le h ++ rest)) = false ∧
    exceptIsOk (readFileDescriptors enc (u16le h ++ rest)) = false := by
  have hstep : ∃ e, readFdStep enc (u16le h ++ rest) = .error e := by
    simp only [readFdStep, readU16le?_u16le h rest (by omega), optElim_some]
    cases h1 : readU32le? rest with
    | none => exact ⟨"Unable to read real_size", by simp [orDie_none]⟩
    | some p1 =>
      simp only [orDie_some]
      cases h2 : readU32le? p1.2 with
      | none => exact ⟨"Unable to read compressed_size", by simp [orDie_none]⟩
      | some p2 =>
        simp only [orDie_some]
        cases h3 : readU32le? p2.2 with
        | none => exact ⟨"Unable to read crc", by simp [orDie_none]⟩
        | some p3 =>
          simp only [orDie_some]
          rw [if_neg (by omega)]
          exact ⟨_, rfl⟩
  obtain ⟨e, he⟩ := hstep
  have key : ∀ f a, exceptIsOk (readFdLoop enc f a (u16le h ++ rest)) = false := by
    intro f a
    match f with
    | 0 => rfl
    | f' + 1 => simp [readFdLoop, he, exBind_error, exceptIsOk]
  exact ⟨key fuel acc, key _ []⟩

/-- C10 witness at `header_size = 0`. -/
theorem headerSize_underflow_aborts_witness :
    (0 < 16) ∧
    exceptIsOk (readFdLoop asciiEnc 1 [] (u16le 0 ++ [])) = false ∧
    exceptIsOk (readFileDescriptors asciiEnc (u16le 0 ++ [])) = false :=
  ⟨by decide, headerSize_underflow_aborts asciiEnc 0 (by decide) 1 [] []⟩

/-! ## Merge lemmas and C1 -/

theorem mapLookup_insert {α : Type} (m : List (String × α)) (k n : String) (v : α) :
    mapLookup (mapInsert m k v) n = if k = n then some v else mapLookup m n := by
  induction m with
  | nil =>
    by_cases h2 : k = n <;> simp [mapInsert, mapLookup, h2]
  | cons x rest ih =>
    obtain ⟨k1, v1⟩ := x
    by_cases h1 : k1 = k
    · subst h1
      by_cases h2 : k1 = n <;> simp [mapInsert, mapLookup, h2]
    · by_cases h2 : k1 = n
      · subst h2
        have hk : ¬ k = k1 := fun h => h1 h.symm
        simp [mapInsert, mapLookup, h1, hk]
      · simp [mapInsert, mapLookup, h1, h2, ih]

theorem insertAllFiles_lookup (h : ShortArchiveHeader) (fs : FdMap) (n : String) :
    ∀ acc : MergedMap, mapLookup (insertAllFiles h fs acc) n =
      optElim (lookupLast fs n) (mapLookup acc n) (fun d => some (h, d)) := by
  induction fs with
  | nil => intro acc; simp [insertAllFiles, lookupLast, optElim]
  | cons x fs ih =>
    intro acc
    have hfold : insertAllFiles h (x :: fs) acc
        = insertAllFiles h fs (mapInsert acc x.1 (h, x.2)) := by
      simp [insertAllFiles]
    rw [hfold, ih]
    cases hl : lookupLast fs n with
    | some d => simp [lookupLast, hl, optElim]
    | none =>
      by_cases h2 : x.1 = n
      · simp [lookupLast, hl, optElim, h2, mapLookup_insert]
      · simp [lookupLast, hl, optElim, h2, mapLookup_insert]

theorem mergeHeadersAux_lookup (hs : List (ShortArchiveHeader × FdMap)) (n : String) :
    ∀ acc : MergedMap, mapLookup (mergeHeadersAux hs acc) n =
      optElim (lastDefined hs n) (mapLookup acc n) some := by
  induction hs with
  | nil => intro acc; simp [mergeHeadersAux, lastDefined, optElim]
  | cons x hs ih =>
    intro acc
    obtain ⟨h, fs⟩ := x
    rw [show mergeHeadersAux ((h, fs) :: hs) acc = mergeHeadersAux hs (insertAllFiles h fs acc)
      from rfl, ih, insertAllFiles_lookup]
    cases hl : lastDefined hs n with
    | some r => simp [lastDefined, hl, optElim]
    | none =>
      cases hk : lookupLast fs n with
      | some d => simp [lastDefined, hl, hk, optElim]
      | none => simp [lastDefined, hl, hk, optElim]

theorem insertLogged_fst (h : ShortArchiveHeader) (n : String) (d : FileDescriptor)
    (st : MergedMap × List OverrideEvent) :
    (insertLogged h n d st).1 = mapInsert st.1 n (h, d) := by
  cases hl : mapLookup st.1 n <;> simp [insertLogged, hl]

theorem insertAllLogged_fst (h : ShortArchiveHeader) (fs : FdMap) :
    ∀ st : MergedMap × List OverrideEvent,
      (insertAllLogged h fs st).1 = insertAllFiles h fs st.1 := by
  induction fs with
  | nil => intro st; simp [insertAllLogged, insertAllFiles]
  | cons x fs ih =>
    intro st
    have h1 : insertAllLogged h (x :: fs) st
        = insertAllLogged h fs (insertLogged h x.1 x.2 st) := by
      simp [insertAllLogged]
    have h2 : insertAllFiles h (x :: fs) st.1
        = insertAllFiles h fs (mapInsert st.1 x.1 (h, x.2)) := by
      simp [insertAllFiles]
    rw [h1, h2, ih, insertLogged_fst]

theorem mergeHeadersLogAux_fst (hs : List (ShortArchiveHeader × FdMap)) :
    ∀ st : MergedMap × List OverrideEvent,
      (mergeHeadersLogAux hs st).1 = mergeHeadersAux hs st.1 := by
  induction hs with
  | nil => intro st; rfl
  | cons x hs ih =>
    intro st
    obtain ⟨h, fs⟩ := x
    rw [show mergeHeadersLogAux ((h, fs) :: hs) st
        = mergeHeadersLogAux hs (insertAllLogged h fs st) from rfl, ih, insertAllLogged_fst]
    rfl

/-- C1: merging is deterministic and strictly ordered by archive input
order.  Folding the (ordered) archive headers inserts each (name,
descriptor) pair in archive order, so the merged table's entry for any
name — archive identity and descriptor — is exactly the one of the last
archive in input order that defines that name (`lastDefined`); and running
the merge with override logging (an event per overwritten binding, never
an error — the log-producing fold is total) yields the same table. -/
theorem merge_last_archive_wins (hs : List (ShortArchiveHeader × FdMap)) (n : String) :
    mapLookup (mergeHeaders hs) n = lastDefined hs n ∧
    (mergeHeadersLog hs).1 = mergeHeaders hs := by
  constructor
  · rw [mergeHeaders, mergeHeadersAux_lookup hs n []]
    cases lastDefined hs n <;> simp [optElim, mapLookup]
  · rw [mergeHeadersLog, mergeHeadersLogAux_fst, mergeHeaders]

/-! ## Stored-copy lemmas, C4 and C3 -/

theorem takeAdd {α : Type} : ∀ (m : Nat) (l : List α) (n : Nat),
    l.take (m + n) = l.take m ++ (l.drop m).take n := by
  intro m
  induction m with
  | zero => intro l n; simp
  | succ k ih =>
    intro l n
    cases l with
    | nil => simp
    | cons x xs =>
      have : k + 1 + n = (k + n) + 1 := by omega
      rw [this]
      simp [List.take_succ_cons, ih xs n]

theorem copyChunksF_complete (bufLen : Nat) (hbuf : 0 < bufLen) :
    ∀ (fuel remaining : Nat) (src : List Nat), remaining < fuel → remaining ≤ src.length →
      ∃ chunks, copyChunksF bufLen fuel src remaining = .ok chunks ∧
        chunks.flatten = src.take remaining ∧ ∀ ch ∈ chunks, ch.length ≤ bufLen := by
  intro fuel
  induction fuel with
  | zero => intro r src hf _; omega
  | succ f ih =>
    intro remaining src hf hs
    by_cases h0 : remaining = 0
    · subst h0
      exact ⟨[], by simp [copyChunksF], by simp, by simp⟩
    · have hmin2 : min bufLen remaining ≤ remaining := Nat.min_le_right _ _
      have hmin3 : min bufLen remaining ≤ bufLen := Nat.min_le_left _ _
      have hreadN : min (min bufLen remaining) src.length = min bufLen remaining :=
        Nat.min_eq_left (le_trans hmin2 hs)
      have hpos : 0 < min bufLen remaining := Nat.lt_min.mpr ⟨hbuf, by omega⟩
      obtain ⟨chunks, hok, hflat, hbound⟩ :=
        ih (remaining - min bufLen remaining) (src.drop (min bufLen remaining))
          (by omega) (by simp; omega)
      refine ⟨src.take (min bufLen remaining) :: chunks, ?_, ?_, ?_⟩
      · rw [copyChunksF]
        rw [if_neg h0, hreadN, if_neg (by omega), hok]
        rfl
      · have hsum : min bufLen remaining + (remaining - min bufLen remaining) = remaining := by
          omega
        simp only [List.flatten_cons, hflat]
        rw [← takeAdd, hsum]
      · intro ch hch
        cases hch with
        | head => exact le_trans (List.length_take_le _ _) hmin3
        | tail _ h => exact hbound ch h

theorem copyChunksF_short (bufLen : Nat) :
    ∀ (fuel remaining : Nat) (src : List Nat), remaining < fuel → src.length < remaining →
      copyChunksF bufLen fuel src remaining = .error "Unexpected End Of File" := by
  intro fuel
  induction fuel with
  | zero => intro r src hf _; omega
  | succ f ih =>
    intro remaining src hf hs
    have h0 : remaining ≠ 0 := by omega
    by_cases hz : min (min bufLen remaining) src.length = 0
    · rw [copyChunksF, if_neg h0, if_pos hz]
    · have hminS : min (min bufLen remaining) src.length ≤ src.length := Nat.min_le_right _ _
      have hrec := ih (remaining - min (min bufLen remaining) src.length)
        (src.drop (min (min bufLen remaining) src.length)) (by omega) (by simp; omega)
      rw [copyChunksF, if_neg h0, if_neg hz, hrec]
      rfl

/-- C4: for every stored entry (`real_size = compressed_size`), extraction
stream-copies exactly `real_size` bytes from the archive at the
descriptor's offset to the destination, in chunks of at most 256 KiB
(262144 bytes) each; and reaching end-of-file of the source before
`real_size` bytes have been copied is fatal. -/
theorem stored_entry_stream_copy (lzo : List Nat → Nat → Option (List Nat))
    (crc32 : List Nat → Nat) (archive : List Nat) (d : FileDescriptor)
    (heq : d.real_size = d.compressed_size) :
    (d.real_size ≤ (archive.drop d.offset).length →
      ∃ chunks, copyStored (archive.drop d.offset) d.real_size = .ok chunks ∧
        chunks.flatten = (archive.drop d.offset).take d.real_size ∧
        (∀ ch ∈ chunks, ch.length ≤ 262144) ∧
        unpackFile lzo crc32 archive d = .ok ((archive.drop d.offset).take d.real_size)) ∧
    ((archive.drop d.offset).length < d.real_size →
      unpackFile lzo crc32 archive d = .error "Unexpected End Of File") := by
  constructor
  · intro hlen
    by_cases h0 : d.real_size = 0
    · refine ⟨[], ?_, by simp [h0], by simp, ?_⟩
      · simp [copyStored, h0, copyChunksF]
      · rw [unpackFile, if_neg (not_not_intro heq)]
        simp [copyStored, h0, copyChunksF, exBind_ok]
    · have hbuf : 0 < min 262144 d.real_size := Nat.lt_min.mpr ⟨by omega, by omega⟩
      obtain ⟨chunks, hok, hflat, hbound⟩ :=
        copyChunksF_complete (min 262144 d.real_size) hbuf (d.real_size + 1) d.real_size
          (archive.drop d.offset) (by omega) hlen
      refine ⟨chunks, hok, hflat, ?_, ?_⟩
      · intro ch hch
        exact le_trans (hbound ch hch) (Nat.min_le_left _ _)
      · rw [unpackFile, if_neg (not_not_intro heq)]
        rw [show copyStored (archive.drop d.offset) d.real_size
            = copyChunksF (min 262144 d.real_size) (d.real_size + 1) (archive.drop d.offset)
              d.real_size from rfl, hok, exBind_ok, hflat]
  · intro hshort
    have hsh := copyChunksF_short (min 262144 d.real_size) (d.real_size + 1) d.real_size
      (archive.drop d.offset) (by omega) hshort
    rw [unpackFile, if_neg (not_not_intro heq)]
    rw [show copyStored (archive.drop d.offset) d.real_size
        = copyChunksF (min 262144 d.real_size) (d.real_size + 1) (archive.drop d.offset)
          d.real_size from rfl, hsh]
    rfl

/-- C4 witness: a stored entry of two bytes at offset 1 of a four-byte
archive is copied exactly, and the copy machinery reports the chunks. -/
theorem stored_entry_stream_copy_witness :
    (2 : Nat) ≤ (([1, 2, 3, 4] : List Nat).drop 1).length ∧
    (∃ chunks, copyStored (([1, 2, 3, 4] : List Nat).drop 1) 2 = .ok chunks ∧
      chunks.flatten = (([1, 2, 3, 4] : List Nat).drop 1).take 2 ∧
      (∀ ch ∈ chunks, ch.length ≤ 262144) ∧
      unpackFile lzoRepl crcLen [1, 2, 3, 4] ⟨"f", 1, 2, 2, 0⟩
        = .ok ((([1, 2, 3, 4] : List Nat).drop 1).take 2)) :=
  ⟨by decide,
    (stored_entry_stream_copy lzoRepl crcLen [1, 2, 3, 4] ⟨"f", 1, 2, 2, 0⟩ rfl).1 (by decide)⟩

/-- C3: checksum verification happens exactly on the compressed path.
For an entry with `real_size ≠ compressed_size`, once the compressed
bytes are read and LZO yields the decompressed payload, extraction
succeeds iff the 32-bit checksum of that decompressed payload equals the
descriptor's `crc`, and a mismatch is the fatal "CRCs do not match".  For
a stored entry (`real_size = compressed_size`) no checksum is ever
verified: the result does not depend on the checksum function or on the
descriptor's `crc` field at all. -/
theorem checksum_only_on_compressed_path
    (lzo : List Nat → Nat → Option (List Nat)) (crc32 crc32' : List Nat → Nat)
    (archive : List Nat) (d d2 : FileDescriptor) (buf rest out : List Nat) (c' : Nat)
    (hne : d.real_size ≠ d.compressed_size)
    (hread : readExact? d.compressed_size (archive.drop d.offset) = some (buf, rest))
    (hlzo : lzo buf d.real_size = some out)
    (heq2 : d2.real_size = d2.compressed_size) :
    ((unpackFile lzo crc32 archive d = .ok out ↔ crc32 out = d.crc) ∧
      (crc32 out ≠ d.crc → unpackFile lzo crc32 archive d = .error "CRCs do not match")) ∧
    unpackFile lzo crc32 archive d2
      = unpackFile lzo crc32' archive { d2 with crc := c' } := by
  refine ⟨⟨?_, ?_⟩, ?_⟩
  · rw [unpackFile, if_pos hne]
    simp only [hread, orDie_some, hlzo]
    by_cases hc : crc32 out = d.crc
    · simp [hc]
    · simp [hc]
  · intro hc
    rw [unpackFile, if_pos hne]
    simp only [hread, orDie_some, hlzo]
    rw [if_neg hc]
  · have h2 : ¬ ({ d2 with crc := c' } : FileDescriptor).real_size
        ≠ ({ d2 with crc := c' } : FileDescriptor).compressed_size := by
      simp [heq2]
    rw [unpackFile, if_neg (not_not_intro heq2), unpackFile, if_neg h2]

/-- C3 witness: a compressed entry whose checksum matches, and a stored
entry whose result ignores the checksum function and the `crc` field. -/
theorem checksum_only_on_compressed_path_witness :
    ((⟨"x", 0, 2, 1, 2⟩ : FileDescriptor).real_size
      ≠ (⟨"x", 0, 2, 1, 2⟩ : FileDescriptor).compressed_size) ∧
    readExact? 1 (([9, 9, 9] : List Nat).drop 0) = some ([9], [9, 9]) ∧
    lzoRepl [9] 2 = some [7, 7] ∧
    (((unpackFile lzoRepl crcLen [9, 9, 9] ⟨"x", 0, 2, 1, 2⟩ = .ok [7, 7]
        ↔ crcLen [7, 7] = 2) ∧
      (crcLen [7, 7] ≠ 2 →
        unpackFile lzoRepl crcLen [9, 9, 9] ⟨"x", 0, 2, 1, 2⟩ = .error "CRCs do not match")) ∧
    unpackFile lzoRepl crcLen [9, 9, 9] ⟨"y", 0, 3, 3, 1⟩
      = unpackFile lzoRepl crcZero [9, 9, 9] ⟨"y", 0, 3, 3, 42⟩) :=
  ⟨by decide, by decide, by decide,
    checksum_only_on_compressed_path lzoRepl crcLen crcZero [9, 9, 9] ⟨"x", 0, 2, 1, 2⟩
      ⟨"y", 0, 3, 3, 1⟩ [9] [9, 9] [7, 7] 42 (by decide) (by decide) (by decide) rfl⟩

/-! ## C5: chunk payload layout -/

theorem readU32le?_u32le_nil (v : Nat) (h : v < 4294967296) :
    readU32le? (u32le v) = some (v, []) := by
  simpa using readU32le?_u32le v [] h

/-- C5: the chunk reader's payload layout.  With the compressed flag set
and on-disk length `L = 4 + |cb|`, the payload is a 4-byte little-endian
decoded length `D` followed by the `L - 4` compressed bytes `cb`, and the
delivered payload is exactly the LH1 decode of `cb` into `D` bytes (the
decoder contract `hlen` gives the exact length); with the flag clear, the
delivered payload is exactly the `L` raw bytes after the 8-byte header.
In both cases the stream is left at `rest`. -/
theorem chunk_payload_layout (lh1 : List Nat → Nat → Option (List Nat))
    (hlen : ∀ cb D out, lh1 cb D = some out → out.length = D)
    (D : Nat) (cb rest raw : List Nat) (hD : D < 4294967296) :
    readChunk lh1 (u32le D ++ (cb ++ rest)) (4 + cb.length) true
      = optElim (lh1 cb D) (.error "LH1 decoding failed") (fun out => .ok (out, rest)) ∧
    (∀ out, lh1 cb D = some out →
      ∃ p, readChunk lh1 (u32le D ++ (cb ++ rest)) (4 + cb.length) true = .ok (p, rest)
        ∧ p.length = D) ∧
    readChunk lh1 (raw ++ rest) raw.length false = .ok (raw, rest) := by
  have harith : 4 + cb.length - 4 = cb.length := by omega
  have hmain : readChunk lh1 (u32le D ++ (cb ++ rest)) (4 + cb.length) true
      = optElim (lh1 cb D) (.error "LH1 decoding failed") (fun out => .ok (out, rest)) := by
    rw [readChunk, if_pos rfl]
    simp only [readU32le?_u32le D (cb ++ rest) hD, orDie_some]
    rw [if_neg (by omega)]
    simp only [harith, readExact?_append, orDie_some]
    cases h : lh1 cb D with
    | none => simp [orDie_none, optElim_none]
    | some out => simp [orDie_some, optElim_some]
  refine ⟨hmain, ?_, ?_⟩
  · intro out hout
    refine ⟨out, ?_, hlen cb D out hout⟩
    rw [hmain, hout, optElim_some]
  · rw [readChunk, if_neg (by simp)]
    simp only [readExact?_append, orDie_some]

/-- C5 witness: a compressed chunk with `D = 2`, one compressed byte and
one trailing byte, and a stored chunk of two raw bytes. -/
theorem chunk_payload_layout_witness :
    (∀ cb D out, lh1Repl cb D = some out → out.length = D) ∧ (2 : Nat) < 4294967296 ∧
    readChunk lh1Repl (u32le 2 ++ ([5] ++ [9])) (4 + ([5] : List Nat).length) true
      = optElim (lh1Repl [5] 2) (.error "LH1 decoding failed") (fun out => .ok (out, [9])) ∧
    (∀ out, lh1Repl [5] 2 = some out →
      ∃ p, readChunk lh1Repl (u32le 2 ++ ([5] ++ [9])) (4 + ([5] : List Nat).length) true
        = .ok (p, [9]) ∧ p.length = 2) ∧
    readChunk lh1Repl (([1, 2] : List Nat) ++ [9]) ([1, 2] : List Nat).length false
      = .ok ([1, 2], [9]) :=
  ⟨fun cb D out h => by
      simp only [lh1Repl, Option.some.injEq] at h
      rw [← h]; simp,
    by decide,
    chunk_payload_layout lh1Repl
      (fun cb D out h => by
        simp only [lh1Repl, Option.some.injEq] at h
        rw [← h]; simp)
      2 [5] [9] [1, 2] (by decide)⟩

/-! ## C7: the name-length boundary is 519/520, not 520/521 -/

/-- C7 counterexample: a record whose encoded name length is exactly 520
(`header_size = 536`) is fatally rejected by the decoder — the assert is
`name_size < 520`, so 520 is not accepted as the claim states. -/
theorem name_length_520_counterexample :
    readFileDescriptors asciiEnc (encodeRecord 1 1 0 (List.replicate 520 97) 0)
      = .error "Name is too long" := rfl

theorem readFdLoop_nil (enc : List Nat → String × Bool) (f : Nat) (hf : 0 < f) (acc : FdMap) :
    readFdLoop enc f acc [] = .ok acc := by
  match f, hf with
  | g + 1, _ => rfl

/-- C7 (amended): the File-Table Decoder accepts a record whose encoded
name length is at most 519 bytes and fatally rejects one whose encoded
name length is 520 or more: decoding a well-formed single-record payload
succeeds exactly when `header_size - 16 < 520` (the name buffer is 520
bytes and the assert is strict), yielding the decoded record. -/
theorem name_length_boundary (enc : List Nat → String × Bool) (real comp crc off : Nat)
    (name : List Nat) (h1 : real < 4294967296) (h2 : comp < 4294967296)
    (h3 : crc < 4294967296) (h4 : off < 4294967296) (h5 : 16 + name.length < 65536)
    (h6 : (enc name).2 = false) :
    (name.length ≤ 519 →
      readFileDescriptors enc (encodeRecord real comp crc name off)
        = .ok [((enc name).1, ⟨(enc name).1, off, real, comp, crc⟩)]) ∧
    (520 ≤ name.length →
      readFileDescriptors enc (encodeRecord real comp crc name off)
        = .error "Name is too long") := by
  have hns : (16 + name.length + 65536 - 16) % 65536 = name.length := by omega
  have hstep : readFdStep enc (encodeRecord real comp crc name off)
      = if name.length < 520 then
          .ok (some (⟨(enc name).1, off, real, comp, crc⟩, []))
        else .error "Name is too long" := by
    rw [readFdStep, encodeRecord]
    simp only [readU16le?_u16le (16 + name.length) _ (by omega), optElim_some,
      readU32le?_u32le real _ h1, orDie_some, readU32le?_u32le comp _ h2,
      readU32le?_u32le crc _ h3, hns]
    by_cases hb : name.length < 520
    · rw [if_pos hb, if_pos hb]
      simp only [readExact?_append, orDie_some, readU32le?_u32le_nil off h4, h6,
        Bool.false_eq_true, if_false]
    · rw [if_neg hb, if_neg hb]
  have hfL : 0 < (encodeRecord real comp crc name off).length := by
    simp only [encodeRecord, u16le, u32le, List.length_append, List.length_cons,
      List.length_nil]
    omega
  constructor
  · intro hle
    rw [readFileDescriptors, readFdLoop, hstep, if_pos (by omega), exBind_ok, optElim_some]
    rw [readFdLoop_nil enc _ hfL]
    rfl
  · intro hge
    rw [readFileDescriptors, readFdLoop, hstep, if_neg (by omega), exBind_error]

/-- C7 (amended) witness: a 519-byte name is accepted. -/
theorem name_length_boundary_witness :
    ((1 : Nat) < 4294967296) ∧ (16 + (List.replicate 519 97).length < 65536) ∧
    ((asciiEnc (List.replicate 519 97)).2 = false) ∧
    (((List.replicate 519 97).length ≤ 519 →
      readFileDescriptors asciiEnc (encodeRecord 1 1 0 (List.replicate 519 97) 0)
        = .ok [((asciiEnc (List.replicate 519 97)).1,
            ⟨(asciiEnc (List.replicate 519 97)).1, 0, 1, 1, 0⟩)]) ∧
    (520 ≤ (List.replicate 519 97).length →
      readFileDescriptors asciiEnc (encodeRecord 1 1 0 (List.replicate 519 97) 0)
        = .error "Name is too long")) :=
  ⟨by decide, by decide, by decide,
    name_length_boundary asciiEnc 1 1 0 0 (List.replicate 519 97) (by decide) (by decide)
      (by decide) (by decide) (by decide) (by decide)⟩

/-! ## Archive-loop machinery: lengths, fuel invariance, encode bridge -/

theorem exBind_assoc {α β γ : Type} (r : Except String α) (k1 : α → Except String β)
    (k2 : β → Except String γ) :
    exBind (exBind r k1) k2 = exBind r (fun v => exBind (k1 v) k2) := by
  cases r <;> rfl

theorem readChunk_len {lh1 : List Nat → Nat → Option (List Nat)} {s : List Nat} {L : Nat}
    {c : Bool} {p : List Nat × List Nat} (h : readChunk lh1 s L c = .ok p) :
    p.2.length ≤ s.length := by
  cases c with
  | false =>
    rw [readChunk, if_neg (by simp)] at h
    cases h1 : readExact? L s with
    | none => rw [h1, orDie_none] at h; simp at h
    | some raw =>
      rw [h1, orDie_some] at h
      simp only [Except.ok.injEq] at h
      subst h
      exact (readExact?_some_len h1).1
  | true =>
    rw [readChunk, if_pos rfl] at h
    cases h1 : readU32le? s with
    | none => rw [h1, orDie_none] at h; simp at h
    | some dl =>
      rw [h1, orDie_some] at h
      by_cases h4 : L < 4
      · rw [if_pos h4] at h; simp at h
      · rw [if_neg h4] at h
        cases h2 : readExact? (L - 4) dl.2 with
        | none => rw [h2, orDie_none] at h; simp at h
        | some cb =>
          rw [h2, orDie_some] at h
          cases h3 : lh1 cb.1 dl.1 with
          | none => rw [h3, orDie_none] at h; simp at h
          | some out =>
            rw [h3, orDie_some] at h
            simp only [Except.ok.injEq] at h
            subst h
            have hl1 := readU32le?_some_len h1
            have hl2 := (readExact?_some_len h2).1
            simp only []
            omega

theorem archiveChunkStep_len {enc : List Nat → String × Bool}
    {lh1 : List Nat → Nat → Option (List Nat)} {s : List Nat} {fds : Option FdMap}
    {root : String} {st : List Nat × Option FdMap × String}
    (h : archiveChunkStep enc lh1 s fds root = .ok (some st)) : st.1.length + 8 ≤ s.length := by
  rw [archiveChunkStep] at h
  cases h1 : readU32le? s with
  | none => rw [h1, optElim_none] at h; simp at h
  | some ri =>
    rw [h1, optElim_some] at h
    cases h2 : readU32le? ri.2 with
    | none => rw [h2, orDie_none] at h; simp at h
    | some cz =>
      rw [h2, orDie_some] at h
      have hs1 := readU32le?_some_len h1
      have hs2 := readU32le?_some_len h2
      by_cases ht : ri.1 % 2147483648 = 1 ∨ ri.1 % 2147483648 = 134
      · rw [if_pos ht] at h
        cases h3 : readChunk lh1 cz.2 cz.1 (decide (2147483648 ≤ ri.1)) with
        | error e => rw [h3, exBind_error] at h; simp at h
        | ok p =>
          rw [h3, exBind_ok] at h
          have hp := readChunk_len h3
          cases h4 : readFileDescriptors enc p.1 with
          | error e => rw [h4, exBind_error] at h; simp at h
          | ok m =>
            rw [h4, exBind_ok] at h
            simp only [Except.ok.injEq, Option.some.injEq] at h
            rw [← h]
            simp only []
            omega
      · rw [if_neg ht] at h
        by_cases hm : ri.1 % 2147483648 = 666 ∨ ri.1 % 2147483648 = 1337
        · rw [if_pos hm] at h
          cases h3 : readChunk lh1 cz.2 cz.1 (decide (2147483648 ≤ ri.1)) with
          | error e => rw [h3, exBind_error] at h; simp at h
          | ok p =>
            rw [h3, exBind_ok] at h
            have hp := readChunk_len h3
            cases h4 : readRootPath enc p.1 with
            | error e => rw [h4, exBind_error] at h; simp at h
            | ok r =>
              rw [h4, exBind_ok] at h
              cases r with
              | none => rw [optElim_none] at h; simp at h
              | some rp =>
                rw [optElim_some] at h
                simp only [Except.ok.injEq, Option.some.injEq] at h
                rw [← h]
                simp only []
                omega
        · rw [if_neg hm] at h
          simp only [Except.ok.injEq, Option.some.injEq] at h
          rw [← h]
          simp only [List.length_drop]
          omega

theorem readArchiveLoop_fuel_ext (enc : List Nat → String × Bool)
    (lh1 : List Nat → Nat → Option (List Nat)) :
    ∀ (f g : Nat) (s : List Nat) (fds : Option FdMap) (root : String),
      s.length < f → s.length < g →
      readArchiveLoop enc lh1 f s fds root = readArchiveLoop enc lh1 g s fds root := by
  intro f
  induction f with
  | zero => intro g s fds root hf; omega
  | succ f' ih =>
    intro g s fds root hf hg
    match g, hg with
    | g' + 1, _ =>
      simp only [readArchiveLoop]
      cases hstep : archiveChunkStep enc lh1 s fds root with
      | error e => rfl
      | ok st =>
        cases st with
        | none => rfl
        | some st' =>
          simp only [exBind_ok, optElim_some]
          have hlen := archiveChunkStep_len hstep
          exact ih g' st'.1 st'.2.1 st'.2.2 (by omega) (by omega)

theorem runArchiveLoop_nil (enc : List Nat → String × Bool)
    (lh1 : List Nat → Nat → Option (List Nat)) (fds : Option FdMap) (root : String) :
    runArchiveLoop enc lh1 [] fds root = .ok (fds, root) := rfl

theorem readChunk_append (lh1 : List Nat → Nat → Option (List Nat)) (data rest : List Nat)
    (comp : Bool) :
    readChunk lh1 (data ++ rest) data.length comp
      = exBind (readChunk lh1 data data.length comp) fun p => .ok (p.1, rest) := by
  cases comp with
  | false =>
    rw [readChunk, if_neg (by simp), readChunk, if_neg (by simp)]
    simp only [readExact?_append, readExact?_all, orDie_some, exBind_ok]
  | true =>
    by_cases h4 : data.length < 4
    · have hiso : readChunk lh1 data data.length true = .error "compressed chunk truncated" := by
        rw [readChunk, if_pos rfl, readU32le?_none data h4, orDie_none]
      rw [hiso, exBind_error, readChunk, if_pos rfl]
      cases ha : readU32le? (data ++ rest) with
      | none => rw [orDie_none]
      | some dl => rw [orDie_some, if_pos h4]
    · obtain ⟨D, d4, hd, hdlen⟩ := readU32le?_of_len (show 4 ≤ data.length by omega)
      have hd4 : data.length - 4 = d4.length := by omega
      rw [readChunk, if_pos rfl, readU32le?_append hd]
      rw [readChunk, if_pos rfl, hd]
      simp only [orDie_some, if_neg (show ¬ data.length < 4 by omega), hd4,
        readExact?_append, readExact?_all, orDie_some]
      cases hl : lh1 d4 D with
      | none => simp only [orDie_none, exBind_error]
      | some out => simp only [orDie_some, exBind_ok]

theorem archiveChunkStep_encode (enc : List Nat → String × Bool)
    (lh1 : List Nat → Nat → Option (List Nat)) (c : RawChunk) (rest : List Nat)
    (fds : Option FdMap) (root : String) (hwf : c.wf) :
    archiveChunkStep enc lh1 (encodeChunk c ++ rest) fds root
      = exBind (processChunk enc lh1 c fds root) fun st => .ok (some (rest, st)) := by
  obtain ⟨hid, hlen⟩ := hwf
  have hraw : c.id + (if c.compressed then 2147483648 else 0) < 4294967296 := by
    cases c.compressed <;> (simp; try omega)
  have hassoc : encodeChunk c ++ rest
      = u32le (c.id + if c.compressed then 2147483648 else 0)
        ++ (u32le c.data.length ++ (c.data ++ rest)) := by
    simp [encodeChunk, List.append_assoc]
  have hmod : (c.id + if c.compressed then 2147483648 else 0) % 2147483648 = c.id := by
    cases c.compressed <;> (simp; try omega)
  have hflag : decide (2147483648 ≤ c.id + if c.compressed then 2147483648 else 0)
      = c.compressed := by
    cases c.compressed <;> (simp; try omega)
  rw [archiveChunkStep, hassoc]
  simp only [readU32le?_u32le _ _ hraw, optElim_some,
    readU32le?_u32le c.data.length (c.data ++ rest) hlen, orDie_some, hmod, hflag]
  rw [processChunk]
  by_cases ht : c.id = 1 ∨ c.id = 134
  · rw [if_pos ht, if_pos ht, readChunk_append]
    simp only [exBind_assoc, exBind_ok]
  · rw [if_neg ht, if_neg ht]
    by_cases hm : c.id = 666 ∨ c.id = 1337
    · rw [if_pos hm, if_pos hm, readChunk_append]
      simp only [exBind_assoc, exBind_ok]
      congr 1
      funext v
      congr 1
      funext r
      cases r <;> rfl
    · rw [if_neg hm, if_neg hm, exBind_ok, dropAppend]

theorem runArchiveLoop_cons (enc : List Nat → String × Bool)
    (lh1 : List Nat → Nat → Option (List Nat)) (c : RawChunk) (rest : List Nat)
    (fds : Option FdMap) (root : String) (hwf : c.wf) :
    runArchiveLoop enc lh1 (encodeChunk c ++ rest) fds root
      = exBind (processChunk enc lh1 c fds root) fun st =>
          runArchiveLoop enc lh1 rest st.1 st.2 := by
  have hlen : (encodeChunk c ++ rest).length = 8 + c.data.length + rest.length := by
    simp [encodeChunk, u32le]
    omega
  rw [runArchiveLoop]
  simp only [readArchiveLoop, archiveChunkStep_encode enc lh1 c rest fds root hwf]
  simp only [exBind_assoc, exBind_ok, optElim_some]
  cases hp : processChunk enc lh1 c fds root with
  | error e => rw [exBind_error, exBind_error]
  | ok st =>
    rw [exBind_ok, exBind_ok]
    exact readArchiveLoop_fuel_ext enc lh1 ((encodeChunk c ++ rest).length) (rest.length + 1)
      rest st.1 st.2 (by omega) (by omega)

theorem runArchiveLoop_chunks (enc : List Nat → String × Bool)
    (lh1 : List Nat → Nat → Option (List Nat)) (cs : List RawChunk) (t : List Nat)
    (hwf : ∀ c ∈ cs, RawChunk.wf c) :
    ∀ (fds : Option FdMap) (root : String),
      runArchiveLoop enc lh1 (encodeChunks cs ++ t) fds root
        = exBind (foldChunks enc lh1 cs fds root) fun st =>
            runArchiveLoop enc lh1 t st.1 st.2 := by
  induction cs with
  | nil =>
    intro fds root
    rw [show encodeChunks [] ++ t = t from by simp [encodeChunks]]
    rw [show foldChunks enc lh1 [] fds root = .ok (fds, root) from rfl, exBind_ok]
  | cons c cs ih =>
    intro fds root
    have hassoc : encodeChunks (c :: cs) ++ t = encodeChunk c ++ (encodeChunks cs ++ t) := by
      simp [encodeChunks]
    rw [hassoc, runArchiveLoop_cons enc lh1 c _ fds root (hwf c (by simp))]
    rw [show foldChunks enc lh1 (c :: cs) fds root
        = exBind (processChunk enc lh1 c fds root) fun st => foldChunks enc lh1 cs st.1 st.2
      from rfl]
    rw [exBind_assoc]
    cases hp : processChunk enc lh1 c fds root with
    | error e => rw [exBind_error, exBind_error]
    | ok st =>
      rw [exBind_ok, exBind_ok]
      exact ih (fun c' hc' => hwf c' (by simp [hc'])) st.1 st.2

/-! ## Fold lemmas over abstract chunks -/

theorem processChunk_table_inv {enc : List Nat → String × Bool}
    {lh1 : List Nat → Nat → Option (List Nat)} {c : RawChunk} {fds : Option FdMap}
    {root : String} {st : Option FdMap × String}
    (ht : c.id = 1 ∨ c.id = 134) (h : processChunk enc lh1 c fds root = .ok st) :
    ∃ p m, chunkPayload lh1 c = .ok p ∧ readFileDescriptors enc p = .ok m
      ∧ st = (some m, root) := by
  rw [processChunk, if_pos ht] at h
  cases h1 : readChunk lh1 c.data c.data.length c.compressed with
  | error e => rw [h1, exBind_error] at h; simp at h
  | ok p =>
    rw [h1, exBind_ok] at h
    cases h2 : readFileDescriptors enc p.1 with
    | error e => rw [h2, exBind_error] at h; simp at h
    | ok m =>
      rw [h2, exBind_ok] at h
      simp only [Except.ok.injEq] at h
      exact ⟨p.1, m, by rw [chunkPayload, h1, exBind_ok], h2, h.symm⟩

theorem processChunk_nontable_inv {enc : List Nat → String × Bool}
    {lh1 : List Nat → Nat → Option (List Nat)} {c : RawChunk} {fds : Option FdMap}
    {root : String} {st : Option FdMap × String}
    (ht : ¬(c.id = 1 ∨ c.id = 134)) (h : processChunk enc lh1 c fds root = .ok st) :
    st.1 = fds := by
  rw [processChunk, if_neg ht] at h
  by_cases hm : c.id = 666 ∨ c.id = 1337
  · rw [if_pos hm] at h
    cases h1 : readChunk lh1 c.data c.data.length c.compressed with
    | error e => rw [h1, exBind_error] at h; simp at h
    | ok p =>
      rw [h1, exBind_ok] at h
      cases h2 : readRootPath enc p.1 with
      | error e => rw [h2, exBind_error] at h; simp at h
      | ok r =>
        rw [h2, exBind_ok] at h
        cases r with
        | none => rw [optElim_none] at h; simp at h
        | some rp =>
          rw [optElim_some] at h
          simp only [Except.ok.injEq] at h
          rw [← h]
  · rw [if_neg hm] at h
    simp only [Except.ok.injEq] at h
    rw [← h]

theorem processChunk_nonmeta_root {enc : List Nat → String × Bool}
    {lh1 : List Nat → Nat → Option (List Nat)} {c : RawChunk} {fds : Option FdMap}
    {root : String} {st : Option FdMap × String}
    (hm : ¬(c.id = 666 ∨ c.id = 1337)) (h : processChunk enc lh1 c fds root = .ok st) :
    st.2 = root := by
  by_cases ht : c.id = 1 ∨ c.id = 134
  · obtain ⟨p, m, _, _, hst⟩ := processChunk_table_inv ht h
    rw [hst]
  · rw [processChunk, if_neg ht, if_neg hm] at h
    simp only [Except.ok.injEq] at h
    rw [← h]

theorem processChunk_meta_none {enc : List Nat → String × Bool}
    {lh1 : List Nat → Nat → Option (List Nat)} {c : RawChunk} {fds : Option FdMap}
    {root : String}
    (hm : c.id = 666 ∨ c.id = 1337) (huc : c.compressed = false)
    (hnone : readRootPath enc c.data = .ok none) :
    processChunk enc lh1 c fds root = .error "entry_point must be specified" := by
  have ht : ¬(c.id = 1 ∨ c.id = 134) := by rcases hm with h | h <;> omega
  rw [processChunk, if_neg ht, if_pos hm, huc]
  rw [readChunk, if_neg (by simp), readExact?_all, orDie_some, exBind_ok, hnone, exBind_ok,
    optElim_none]

theorem foldChunks_table_presence (enc : List Nat → String × Bool)
    (lh1 : List Nat → Nat → Option (List Nat)) :
    ∀ (cs : List RawChunk) (fds : Option FdMap) (root : String) (fds' : Option FdMap)
      (root' : String), foldChunks enc lh1 cs fds root = .ok (fds', root') →
      (fds' = none ↔ fds = none ∧ ∀ c ∈ cs, ¬(c.id = 1 ∨ c.id = 134)) := by
  intro cs
  induction cs with
  | nil =>
    intro fds root fds' root' h
    rw [show foldChunks enc lh1 [] fds root = .ok (fds, root) from rfl] at h
    simp only [Except.ok.injEq, Prod.mk.injEq] at h
    simp [← h.1]
  | cons c cs ih =>
    intro fds root fds' root' h
    rw [show foldChunks enc lh1 (c :: cs) fds root
        = exBind (processChunk enc lh1 c fds root) fun st => foldChunks enc lh1 cs st.1 st.2
      from rfl] at h
    cases hp : processChunk enc lh1 c fds root with
    | error e => rw [hp, exBind_error] at h; simp at h
    | ok st =>
      rw [hp, exBind_ok] at h
      have hiff := ih st.1 st.2 fds' root' h
      by_cases ht : c.id = 1 ∨ c.id = 134
      · obtain ⟨p, m, _, _, hst⟩ := processChunk_table_inv ht hp
        rw [hst] at hiff
        simp only at hiff
        constructor
        · intro hn
          rw [hiff] at hn
          simp at hn
        · intro hall
          exact absurd ht (hall.2 c (by simp))
      · have hst := processChunk_nontable_inv ht hp
        rw [hst] at hiff
        rw [hiff]
        constructor
        · intro hall
          refine ⟨hall.1, ?_⟩
          intro c' hc'
          rcases List.mem_cons.mp hc' with hcc | hcc
          · rw [hcc]; exact ht
          · exact hall.2 c' hcc
        · intro hall
          exact ⟨hall.1, fun c' hc' => hall.2 c' (by simp [hc'])⟩

theorem foldChunks_no_table_fst (enc : List Nat → String × Bool)
    (lh1 : List Nat → Nat → Option (List Nat)) :
    ∀ (cs : List RawChunk) (fds : Option FdMap) (root : String) (fds' : Option FdMap)
      (root' : String), (∀ c ∈ cs, ¬(c.id = 1 ∨ c.id = 134)) →
      foldChunks enc lh1 cs fds root = .ok (fds', root') → fds' = fds := by
  intro cs
  induction cs with
  | nil =>
    intro fds root fds' root' _ h
    rw [show foldChunks enc lh1 [] fds root = .ok (fds, root) from rfl] at h
    simp only [Except.ok.injEq, Prod.mk.injEq] at h
    exact h.1.symm
  | cons c cs ih =>
    intro fds root fds' root' hno h
    rw [show foldChunks enc lh1 (c :: cs) fds root
        = exBind (processChunk enc lh1 c fds root) fun st => foldChunks enc lh1 cs st.1 st.2
      from rfl] at h
    cases hp : processChunk enc lh1 c fds root with
    | error e => rw [hp, exBind_error] at h; simp at h
    | ok st =>
      rw [hp, exBind_ok] at h
      have hst := processChunk_nontable_inv (hno c (by simp)) hp
      rw [ih st.1 st.2 fds' root' (fun c' hc' => hno c' (by simp [hc'])) h, hst]

theorem foldChunks_no_meta_root (enc : List Nat → String × Bool)
    (lh1 : List Nat → Nat → Option (List Nat)) :
    ∀ (cs : List RawChunk) (fds : Option FdMap) (root : String) (fds' : Option FdMap)
      (root' : String), (∀ c ∈ cs, ¬(c.id = 666 ∨ c.id = 1337)) →
      foldChunks enc lh1 cs fds root = .ok (fds', root') → root' = root := by
  intro cs
  induction cs with
  | nil =>
    intro fds root fds' root' _ h
    rw [show foldChunks enc lh1 [] fds root = .ok (fds, root) from rfl] at h
    simp only [Except.ok.injEq, Prod.mk.injEq] at h
    exact h.2.symm
  | cons c cs ih =>
    intro fds root fds' root' hno h
    rw [show foldChunks enc lh1 (c :: cs) fds root
        = exBind (processChunk enc lh1 c fds root) fun st => foldChunks enc lh1 cs st.1 st.2
      from rfl] at h
    cases hp : processChunk enc lh1 c fds root with
    | error e => rw [hp, exBind_error] at h; simp at h
    | ok st =>
      rw [hp, exBind_ok] at h
      have hst := processChunk_nonmeta_root (hno c (by simp)) hp
      rw [ih st.1 st.2 fds' root' (fun c' hc' => hno c' (by simp [hc'])) h, hst]

theorem lastTableChunk_none_iff :
    ∀ cs : List RawChunk, lastTableChunk cs = none ↔ ∀ c ∈ cs, ¬(c.id = 1 ∨ c.id = 134) := by
  intro cs
  induction cs with
  | nil => simp [lastTableChunk]
  | cons c cs ih =>
    cases hl : lastTableChunk cs with
    | some c' =>
      rw [show lastTableChunk (c :: cs) = some c' from by rw [lastTableChunk, hl]]
      constructor
      · intro h; simp at h
      · intro hall
        have : lastTableChunk cs = none := ih.mpr (fun c' hc' => hall c' (by simp [hc']))
        rw [hl] at this
        simp at this
    | none =>
      by_cases ht : c.id = 1 ∨ c.id = 134
      · rw [show lastTableChunk (c :: cs) = some c from by rw [lastTableChunk, hl]; simp [ht]]
        constructor
        · intro h; simp at h
        · intro hall; exact absurd ht (hall c (by simp))
      · rw [show lastTableChunk (c :: cs) = none from by rw [lastTableChunk, hl]; simp [ht]]
        constructor
        · intro _
          intro c' hc'
          rcases List.mem_cons.mp hc' with hcc | hcc
          · rw [hcc]; exact ht
          · exact (ih.mp hl) c' hcc
        · intro _; rfl

theorem foldChunks_last_table (enc : List Nat → String × Bool)
    (lh1 : List Nat → Nat → Option (List Nat)) :
    ∀ (cs : List RawChunk) (fds : Option FdMap) (root : String) (fds' : Option FdMap)
      (root' : String), foldChunks enc lh1 cs fds root = .ok (fds', root') →
      ∀ (c : RawChunk) (p : List Nat) (m : FdMap), lastTableChunk cs = some c →
        chunkPayload lh1 c = .ok p → readFileDescriptors enc p = .ok m → fds' = some m := by
  intro cs
  induction cs with
  | nil => intro fds root fds' root' _ c p m hlast; simp [lastTableChunk] at hlast
  | cons c0 cs ih =>
    intro fds root fds' root' h c p m hlast hcp hfd
    rw [show foldChunks enc lh1 (c0 :: cs) fds root
        = exBind (processChunk enc lh1 c0 fds root) fun st => foldChunks enc lh1 cs st.1 st.2
      from rfl] at h
    cases hp : processChunk enc lh1 c0 fds root with
    | error e => rw [hp, exBind_error] at h; simp at h
    | ok st =>
      rw [hp, exBind_ok] at h
      cases hl : lastTableChunk cs with
      | some c' =>
        have hcc : c' = c := by
          rw [lastTableChunk, hl] at hlast
          simp at hlast
          exact hlast
        exact ih st.1 st.2 fds' root' h c p m (by rw [hl, hcc]) hcp hfd
      | none =>
        by_cases ht : c0.id = 1 ∨ c0.id = 134
        · have hcc : c = c0 := by
            rw [lastTableChunk, hl] at hlast
            simp [ht] at hlast
            exact hlast.symm
          subst hcc
          obtain ⟨p0, m0, hcp0, hfd0, hst⟩ := processChunk_table_inv ht hp
          have hpp : p = p0 := by
            rw [hcp] at hcp0
            simp only [Except.ok.injEq] at hcp0
            exact hcp0
          have hmm : m = m0 := by
            rw [hpp] at hfd
            rw [hfd] at hfd0
            simp only [Except.ok.injEq] at hfd0
            exact hfd0
          have hnotable := (lastTableChunk_none_iff cs).mp hl
          have := foldChunks_no_table_fst enc lh1 cs st.1 st.2 fds' root' hnotable h
          rw [this, hst, hmm]
        · rw [lastTableChunk, hl] at hlast
          simp [ht] at hlast

/-! ## C2: the loader keeps only the last file-table chunk -/

/-- C2 counterexample: an archive with two file-table chunks (one record
"a", then one record "b") yields a table with a single entry — the
decoding of the last table chunk — although two file-table records are
present across all file-table chunks, so the returned table's size is 1
and not 2. -/
theorem header_loader_multi_table_counterexample :
    readFileDescriptors asciiEnc recA = .ok [("a", ⟨"a", 0, 5, 5, 0⟩)] ∧
    readFileDescriptors asciiEnc recB = .ok [("b", ⟨"b", 0, 5, 5, 0⟩)] ∧
    readArchiveHeader asciiEnc lh1None (encodeChunks csTwoTables)
      = .ok (some ⟨[("b", ⟨"b", 0, 5, 5, 0⟩)], ""⟩) ∧
    ([("b", (⟨"b", 0, 5, 5, 0⟩ : FileDescriptor))].length = 1 ∧ (1 : Nat) ≠ 2) :=
  ⟨rfl, rfl, rfl, rfl, by decide⟩

/-- C2 (amended): the Archive Header Loader terminates and returns `none`
exactly when no file-table chunk (id `0x1` or `0x86`) is present, even if
a metadata chunk was; otherwise it returns `some` with the table obtained
by decoding the LAST file-table chunk of the archive (each table chunk
replaces the previous table), whose size is therefore the number of
distinct names in that final chunk, not the record count across all
file-table chunks. -/
theorem header_loader_last_table (enc : List Nat → String × Bool)
    (lh1 : List Nat → Nat → Option (List Nat)) (cs : List RawChunk) (fds' : Option FdMap)
    (root' : String) (hwf : ∀ c ∈ cs, RawChunk.wf c)
    (hok : foldChunks enc lh1 cs none "" = .ok (fds', root')) :
    readArchiveHeader enc lh1 (encodeChunks cs)
      = .ok (optElim fds' none (fun m => some ⟨m, root'⟩)) ∧
    (fds' = none ↔ ∀ c ∈ cs, ¬(c.id = 1 ∨ c.id = 134)) ∧
    (∀ (c : RawChunk) (p : List Nat) (m : FdMap), lastTableChunk cs = some c →
      chunkPayload lh1 c = .ok p → readFileDescriptors enc p = .ok m → fds' = some m) := by
  have hrun : runArchiveLoop enc lh1 (encodeChunks cs) none "" = .ok (fds', root') := by
    have hb := runArchiveLoop_chunks enc lh1 cs [] hwf none ""
    rw [List.append_nil] at hb
    rw [hb, hok, exBind_ok, runArchiveLoop_nil]
  refine ⟨?_, ?_, foldChunks_last_table enc lh1 cs none "" fds' root' hok⟩
  · rw [readArchiveHeader, hrun]
    cases fds' <;> rfl
  · have hiff := foldChunks_table_presence enc lh1 cs none "" fds' root' hok
    simpa using hiff

/-- C2 (amended) witness: on the two-table archive the loader returns the
decoding of the second (last) table chunk. -/
theorem header_loader_last_table_witness :
    (∀ c ∈ csTwoTables, RawChunk.wf c) ∧
    foldChunks asciiEnc lh1None csTwoTables none ""
      = .ok (some [("b", ⟨"b", 0, 5, 5, 0⟩)], "") ∧
    readArchiveHeader asciiEnc lh1None (encodeChunks csTwoTables)
      = .ok (optElim (some [("b", (⟨"b", 0, 5, 5, 0⟩ : FileDescriptor))]) none
          (fun m => some ⟨m, ""⟩)) :=
  ⟨by decide, rfl,
    (header_loader_last_table asciiEnc lh1None csTwoTables
      (some [("b", ⟨"b", 0, 5, 5, 0⟩)]) "" (by decide) rfl).1⟩

/-! ## C6: a metadata chunk without entry_point is fatal, not benign -/

/-- C6 counterexample: a metadata chunk whose payload ("abc") has no
`header` section and no `entry_point` key makes the Metadata Decoder's
result absent (`ok none`), but header loading does NOT complete normally:
the loader aborts with the fatal `expect` message instead of defaulting
`output_root_path` to the empty string. -/
theorem metadata_missing_entry_point_counterexample :
    readRootPath asciiEnc [97, 98, 99] = .ok none ∧
    readArchiveHeader asciiEnc lh1None (encodeChunks csMetaNoEntry)
      = .error "entry_point must be specified" :=
  ⟨rfl, rfl⟩

/-- C6 (amended): when a metadata chunk's payload yields no `header`
section / no `entry_point` key, the Metadata Decoder's result is absent
(`ok none`) — and header loading then aborts with the fatal
"entry_point must be specified" `expect`; `output_root_path` stays the
empty string only for archives that contain no metadata chunk at all. -/
theorem metadata_missing_entry_point_fatal (enc : List Nat → String × Bool)
    (lh1 : List Nat → Nat → Option (List Nat)) (c : RawChunk) (rest : List Nat)
    (fds : Option FdMap) (root : String) (cs : List RawChunk) (fds' : Option FdMap)
    (root' : String) (hmeta : c.id = 666 ∨ c.id = 1337) (hwf : RawChunk.wf c)
    (huc : c.compressed = false) (hnone : readRootPath enc c.data = .ok none)
    (hnometa : ∀ c' ∈ cs, ¬(c'.id = 666 ∨ c'.id = 1337))
    (hok : foldChunks enc lh1 cs none "" = .ok (fds', root')) :
    runArchiveLoop enc lh1 (encodeChunk c ++ rest) fds root
      = .error "entry_point must be specified" ∧ root' = "" := by
  constructor
  · rw [runArchiveLoop_cons enc lh1 c rest fds root hwf,
      processChunk_meta_none hmeta huc hnone, exBind_error]
  · exact foldChunks_no_meta_root enc lh1 cs none "" fds' root' hnometa hok

/-- C6 (amended) witness: the concrete "abc" metadata chunk aborts the
loader, and an archive without metadata chunks keeps the empty root. -/
theorem metadata_missing_entry_point_fatal_witness :
    (((666 : Nat) = 666 ∨ (666 : Nat) = 1337) ∧ RawChunk.wf ⟨666, false, [97, 98, 99]⟩ ∧
      readRootPath asciiEnc [97, 98, 99] = .ok none) ∧
    (runArchiveLoop asciiEnc lh1None (encodeChunk ⟨666, false, [97, 98, 99]⟩ ++ []) none ""
      = .error "entry_point must be specified" ∧ ("" : String) = "") :=
  ⟨⟨Or.inl rfl, by decide, rfl⟩,
    metadata_missing_entry_point_fatal asciiEnc lh1None ⟨666, false, [97, 98, 99]⟩ [] none ""
      [] none "" (Or.inl rfl) (by decide) rfl rfl (by simp) rfl⟩

/-! ## C8: normal termination happens only at the first header word -/

theorem runArchiveLoop_small_break (enc : List Nat → String × Bool)
    (lh1 : List Nat → Nat → Option (List Nat)) (t : List Nat) (ht : t.length < 4)
    (fds : Option FdMap) (root : String) :
    runArchiveLoop enc lh1 t fds root = .ok (fds, root) := by
  rw [runArchiveLoop]
  simp only [readArchiveLoop]
  rw [show archiveChunkStep enc lh1 t fds root = .ok none from by
      rw [archiveChunkStep, readU32le?_none t ht, optElim_none],
    exBind_ok, optElim_none]

theorem runArchiveLoop_small_err (enc : List Nat → String × Bool)
    (lh1 : List Nat → Nat → Option (List Nat)) (t : List Nat) (h4 : 4 ≤ t.length)
    (h8 : t.length < 8) (fds : Option FdMap) (root : String) :
    runArchiveLoop enc lh1 t fds root = .error "Error reading chunk size" := by
  obtain ⟨v, r, hv, hlen⟩ := readU32le?_of_len h4
  rw [runArchiveLoop]
  simp only [readArchiveLoop]
  rw [show archiveChunkStep enc lh1 t fds root = .error "Error reading chunk size" from by
      rw [archiveChunkStep, hv, optElim_some, readU32le?_none r (by omega), orDie_none],
    exBind_error]

/-- C8 counterexample: a stream of exactly four bytes ends inside the
8-byte chunk header (at its second word), which the claim calls normal
termination — but the loop aborts with the fatal `unwrap` on the chunk
size instead. -/
theorem header_truncation_counterexample :
    readArchiveHeader asciiEnc lh1None [0, 0, 0, 0] = .error "Error reading chunk size" ∧
    ([0, 0, 0, 0] : List Nat).length < 8 :=
  ⟨rfl, by decide⟩

/-- C8 (amended): for a stream of well-formed chunks followed by trailing
bytes `t`, the chunk loop terminates normally exactly when fewer than 4
bytes remain at the chunk-header position (end-of-stream at the FIRST
4-byte header word); end-of-stream inside the second header word (4–7
trailing bytes) is the fatal "Error reading chunk size"; and truncation
inside a recognized (file-table, uncompressed) chunk's declared payload is
a fatal read error. -/
theorem loop_termination_boundary (enc : List Nat → String × Bool)
    (lh1 : List Nat → Nat → Option (List Nat)) (cs : List RawChunk) (t : List Nat)
    (fds' : Option FdMap) (root' : String) (hwf : ∀ c ∈ cs, RawChunk.wf c)
    (hok : foldChunks enc lh1 cs none "" = .ok (fds', root')) :
    (t.length < 4 → readArchiveHeader enc lh1 (encodeChunks cs ++ t)
      = .ok (optElim fds' none (fun m => some ⟨m, root'⟩))) ∧
    (4 ≤ t.length → t.length < 8 → readArchiveHeader enc lh1 (encodeChunks cs ++ t)
      = .error "Error reading chunk size") ∧
    (∀ (L : Nat) (d : List Nat) (fds : Option FdMap) (root : String), d.length < L →
      L < 4294967296 →
      runArchiveLoop enc lh1 (u32le 1 ++ (u32le L ++ d)) fds root
        = .error "chunk data truncated") := by
  refine ⟨?_, ?_, ?_⟩
  · intro h4
    rw [readArchiveHeader, runArchiveLoop_chunks enc lh1 cs t hwf none "", hok, exBind_ok,
      runArchiveLoop_small_break enc lh1 t h4 fds' root']
    cases fds' <;> rfl
  · intro h4 h8
    rw [readArchiveHeader, runArchiveLoop_chunks enc lh1 cs t hwf none "", hok, exBind_ok,
      runArchiveLoop_small_err enc lh1 t h4 h8 fds' root']
  · intro L d fds root hd hL
    have hstep : archiveChunkStep enc lh1 (u32le 1 ++ (u32le L ++ d)) fds root
        = .error "chunk data truncated" := by
      rw [archiveChunkStep]
      simp only [readU32le?_u32le 1 (u32le L ++ d) (by omega), optElim_some,
        readU32le?_u32le L d hL, orDie_some]
      rw [if_pos (Or.inl (by norm_num)),
        show decide (2147483648 ≤ 1) = false from rfl]
      rw [readChunk, if_neg (by simp), readExact?_none hd, orDie_none, exBind_error]
    rw [runArchiveLoop]
    simp only [readArchiveLoop]
    rw [hstep, exBind_error]

/-- C8 (amended) witness: three trailing bytes after no chunks terminate
the loader normally with an empty result. -/
theorem loop_termination_boundary_witness :
    (∀ c ∈ ([] : List RawChunk), RawChunk.wf c) ∧
    foldChunks asciiEnc lh1None [] none "" = .ok (none, "") ∧
    (([7, 7, 7] : List Nat).length < 4 →
      readArchiveHeader asciiEnc lh1None (encodeChunks [] ++ [7, 7, 7])
        = .ok (optElim none none (fun m => some ⟨m, ""⟩))) :=
  ⟨by simp, rfl,
    (loop_termination_boundary asciiEnc lh1None [] [7, 7, 7] none "" (by simp) rfl).1⟩

/-! ## C9: skipping advances by exactly the payload length, no prefix read -/

/-- C9 counterexample: on an archive whose first chunk is
compressed-flagged and unrecognized (id 5, 8 payload bytes) followed by a
file-table chunk, the code's reader lands exactly on the next chunk header
and decodes the table; the spec-worded variant, which first consumes a
4-byte compressed-length prefix and then advances by `L`, lands 4 bytes
late, misparses the rest, and finds no table at all. -/
theorem skip_chunk_counterexample :
    readArchiveHeader asciiEnc lh1None (encodeChunks csSkipThenTable)
      = .ok (some ⟨[("a", ⟨"a", 0, 5, 5, 0⟩)], ""⟩) ∧
    readArchiveHeaderSkipSpec asciiEnc lh1None (encodeChunks csSkipThenTable)
      = .ok none :=
  ⟨rfl, rfl⟩

/-- C9 (amended): for every chunk whose type id is not `0x1`, `0x86`,
`666` or `1337`, the Chunk Reader skips it by advancing the stream
position by exactly `L` bytes from the end of the 8-byte header — without
consuming any compressed-length prefix (the prefix bytes are part of the
`L` skipped payload bytes) and without materializing the payload — so the
stream is then positioned at the next chunk header. -/
theorem skip_chunk_advance (enc : List Nat → String × Bool)
    (lh1 : List Nat → Nat → Option (List Nat)) (c : RawChunk) (rest : List Nat)
    (fds : Option FdMap) (root : String) (hwf : RawChunk.wf c)
    (ht : ¬(c.id = 1 ∨ c.id = 134)) (hm : ¬(c.id = 666 ∨ c.id = 1337)) :
    runArchiveLoop enc lh1 (encodeChunk c ++ rest) fds root
      = runArchiveLoop enc lh1 rest fds root := by
  rw [runArchiveLoop_cons enc lh1 c rest fds root hwf,
    show processChunk enc lh1 c fds root = .ok (fds, root) from by
      rw [processChunk, if_neg ht, if_neg hm],
    exBind_ok]

/-- C9 (amended) witness: a compressed-flagged unrecognized chunk is
skipped whole, leaving the loop state untouched. -/
theorem skip_chunk_advance_witness :
    (RawChunk.wf ⟨5, true, [1, 2, 3]⟩ ∧ ¬((5 : Nat) = 1 ∨ (5 : Nat) = 134) ∧
      ¬((5 : Nat) = 666 ∨ (5 : Nat) = 1337)) ∧
    runArchiveLoop asciiEnc lh1None (encodeChunk ⟨5, true, [1, 2, 3]⟩ ++ []) none ""
      = runArchiveLoop asciiEnc lh1None [] none "" :=
  ⟨⟨by decide, by decide, by decide⟩,
    skip_chunk_advance asciiEnc lh1None ⟨5, true, [1, 2, 3]⟩ [] none "" (by decide) (by decide)
      (by decide)⟩

end Yasu
